import Mathlib

/-!
Verification of the DailyTask repository's task-list reconciliation and
persistence model, as a shallow embedding of the Python source.

Modules embedded here:
* `display_ui.py` — the display window's pure task logic
  (`_current_task_index`, `_sorted_indices_for_display`, `_toggle_done`,
  `_toggle_pin`); all widget code is out of scope.
* `model.py` — the summarization adapter's validation and extraction
  (`_parse_tasks`, `_extract_json_payload`, `_normalize_tasks_data`);
  the network call itself is out of scope, and `json.loads` is treated as
  an abstract parameter where raw text is parsed.
* `storage.py` — the SQLite-backed store modelled as explicit state
  (rows of the `tasks` table, the single `api_keys` row, and the two legacy
  archive directories modelled as maps from day key to parsed file content).
-/

namespace DailyTask

/-- A task as held by the display and editor windows (`display_ui.Task`). -/
structure Task where
  text : String
  done : Bool
  pinned : Bool
deriving Repr, DecidableEq, Inhabited

/-- The test of the first loop of `DisplayWindow._current_task_index`:
`t.pinned and not t.done`. -/
def pinnedActive (t : Task) : Bool := t.pinned && !t.done

/-- One `for i, t in enumerate(tasks)` scan returning the first index whose
task satisfies `p`, counting indices from `i` (the loops of
`DisplayWindow._current_task_index` with their early `return i`). -/
def findIdxFrom (p : Task → Bool) (i : Nat) : List Task → Option Nat
  | [] => none
  | t :: ts => if p t then some i else findIdxFrom p (i + 1) ts

/-- `DisplayWindow._current_task_index`: the first task with
`t.pinned and not t.done`; else the first task with `not t.done`; else
`None`. -/
def currentTaskIndex (tasks : List Task) : Option Nat :=
  match findIdxFrom pinnedActive 0 tasks with
  | some i => some i
  | none => findIdxFrom (fun t => !t.done) 0 tasks

/-- The comprehension `[i for i, t in enumerate(tasks) if p(t)]` with the
enumeration counter starting at `i` (both comprehensions of
`DisplayWindow._sorted_indices_for_display` have this form). -/
def indicesWhereFrom (p : Task → Bool) (i : Nat) : List Task → List Nat
  | [] => []
  | t :: ts =>
    if p t then i :: indicesWhereFrom p (i + 1) ts
    else indicesWhereFrom p (i + 1) ts

/-- `DisplayWindow._sorted_indices_for_display`: the indices of the pinned
tasks followed by the indices of the non-pinned tasks (`pinned + others`). -/
def sortedIndicesForDisplay (tasks : List Task) : List Nat :=
  indicesWhereFrom (fun t => t.pinned) 0 tasks
    ++ indicesWhereFrom (fun t => !t.pinned) 0 tasks

/-- `DisplayWindow._toggle_done`:
`self.tasks[idx].done = not self.tasks[idx].done`. Out-of-range `idx`
(which would raise `IndexError` in Python and is never produced by the UI)
is modelled as a no-op. -/
def toggleDone (tasks : List Task) (idx : Nat) : List Task :=
  match tasks[idx]? with
  | some t => tasks.set idx { t with done := !t.done }
  | none => tasks

/-- `DisplayWindow._toggle_pin`:
`self.tasks[idx].pinned = not self.tasks[idx].pinned`, same conventions as
`toggleDone`. -/
def togglePin (tasks : List Task) (idx : Nat) : List Task :=
  match tasks[idx]? with
  | some t => tasks.set idx { t with pinned := !t.pinned }
  | none => tasks

/-! ### JSON values, as `json.loads` produces them -/

/-- A parsed JSON value as Python's `json.loads` returns it. Numbers are
modelled as integers (the repository's payloads carry only booleans,
strings and structural values; fractional numbers trigger the same
non-string / non-boolean rejections as integers do). Objects are key-value
lists; `json.loads` never yields duplicate keys. -/
inductive JVal where
  | null
  | bool (b : Bool)
  | num (n : Int)
  | str (s : String)
  | arr (xs : List JVal)
  | obj (fields : List (String × JVal))
deriving Repr, Inhabited

/-- Python truthiness `bool(v)` of a parsed JSON value. -/
def truthy : JVal → Bool
  | .null => false
  | .bool b => b
  | .num n => n != 0
  | .str s => !(s == "")
  | .arr xs => !xs.isEmpty
  | .obj fields => !fields.isEmpty

/-- Truthiness of `item.get(key, False)`: the Python default `False` when
the key is absent, else the value's truthiness. -/
def truthyOpt : Option JVal → Bool
  | none => false
  | some v => truthy v

/-- Python `str.strip()`: drop leading and trailing whitespace. -/
def pyStrip (s : String) : String :=
  ⟨(((s.data.dropWhile Char.isWhitespace).reverse.dropWhile
      Char.isWhitespace).reverse)⟩

/-- Python `str.find(c)`: index of the first occurrence of `c`
(`none` models the `-1` of "not found"). -/
def pyFind (s : String) (c : Char) : Option Nat :=
  s.data.findIdx? (· == c)

/-- Python `str.rfind(c)`: index of the last occurrence of `c`. -/
def pyRFind (s : String) (c : Char) : Option Nat :=
  (s.data.reverse.findIdx? (· == c)).map (fun i => s.data.length - 1 - i)

/-- Python slicing `s[a:b]` (with `0 ≤ a ≤ b` as the source uses it). -/
def pySlice (s : String) (a b : Nat) : String :=
  ⟨(s.data.take b).drop a⟩

/-! ### `model.py` — the summarization adapter -/

/-- `model.TaskPayload`. -/
structure TaskPayload where
  text : String
  done : Bool
  pinned : Bool
deriving Repr, DecidableEq, Inhabited

/-- The check `set(item.keys()) == {"text", "done", "pinned"}` used by both
`_parse_tasks` and `_normalize_tasks_data`: the key set is exactly the
three required keys. -/
def keysMatch (fields : List (String × JVal)) : Bool :=
  (fields.map Prod.fst).all
      (fun k => k == "text" || k == "done" || k == "pinned")
    && (fields.map Prod.fst).contains "text"
    && (fields.map Prod.fst).contains "done"
    && (fields.map Prod.fst).contains "pinned"

/-- The body of the loop of `model._parse_tasks` for one array item, in
the source's check order: reject a non-object, a wrong key set, a
non-string `text`, a non-boolean `done`/`pinned`; otherwise the payload
with stripped text. (Error strings are the source's messages, without the
raw-text suffix the caller appends.) -/
def parseItem (item : JVal) : Except String TaskPayload :=
  match item with
  | .obj fields =>
    if keysMatch fields then
      match List.lookup "text" fields with
      | some (.str text) =>
        match List.lookup "done" fields, List.lookup "pinned" fields with
        | some (.bool d), some (.bool p) => .ok ⟨pyStrip text, d, p⟩
        | _, _ => .error "任务 done/pinned 必须是布尔值。"
      | _ => .error "任务 text 必须是字符串。"
    else .error "任务字段不符合要求。"
  | _ => .error "任务项不是对象。"

/-- The loop of `model._parse_tasks`: run `parseItem` over the items,
stopping at the first error, accumulating the `pinned_count` and the
payloads. -/
def parseTasksLoop (items : List JVal) (cnt : Nat) (acc : List TaskPayload) :
    Except String (Nat × List TaskPayload) :=
  match items with
  | [] => .ok (cnt, acc)
  | item :: rest =>
    match parseItem item with
    | .error e => .error e
    | .ok pl =>
      parseTasksLoop rest (if pl.pinned then cnt + 1 else cnt) (acc ++ [pl])

/-- `model._parse_tasks` after extraction and normalization: the validation
loop followed by the `pinned_count > 1` check. -/
def parseTasksData (items : List JVal) : Except String (List TaskPayload) :=
  match parseTasksLoop items 0 [] with
  | .error e => .error e
  | .ok (cnt, tasks) =>
    if cnt > 1 then .error "任务置顶数量超过 1。" else .ok tasks

/-- The body of the bracket-scanning loop of `model._extract_json_payload`
for one `(open_char, close_char)` pair: `some candidate` when the slice
from the first `open_char` to the last `close_char` parses, else `none`
(the Python `continue`). `parse` stands for `json.loads`, `none` for a
`JSONDecodeError`. -/
def tryBracket (parse : String → Option JVal) (raw : String)
    (oc cc : Char) : Option String :=
  match pyFind raw oc, pyRFind raw cc with
  | some s, some e =>
    if e > s then
      let candidate := pyStrip (pySlice raw s (e + 1))
      if (parse candidate).isSome then some candidate else none
    else none
  | _, _ => none

/-- `model._extract_json_payload`: the raw text if it parses; else the
`("[", "]")` candidate, else the `("{", "}")` candidate, else the raw text
unchanged. -/
def extractJsonPayload (parse : String → Option JVal) (raw : String) :
    String :=
  if (parse raw).isSome then raw
  else
    match tryBracket parse raw '[' ']' with
    | some c => c
    | none =>
      match tryBracket parse raw '{' '}' with
      | some c => c
      | none => raw

/-- The key scan of `model._normalize_tasks_data`: the first of the given
keys whose value in `fields` is a list, if any. -/
def unwrapKey (fields : List (String × JVal)) : List String → Option (List JVal)
  | [] => none
  | k :: ks =>
    match List.lookup k fields with
    | some (.arr xs) => some xs
    | _ => unwrapKey fields ks

/-- `model._normalize_tasks_data`: a list stands; an object with exactly
the three task keys is wrapped as a one-element list; an object holding a
list under `tasks`/`items`/`data`/`list` is unwrapped; anything else is a
`ValueError` (the second message elides the source's interpolated key
listing). -/
def normalizeTasksData (data : JVal) : Except String (List JVal) :=
  match data with
  | .arr xs => .ok xs
  | .obj fields =>
    if keysMatch fields then .ok [.obj fields]
    else
      match unwrapKey fields ["tasks", "items", "data", "list"] with
      | some xs => .ok xs
      | none => .error "返回 JSON 不是任务数组。"
  | _ => .error "返回的 JSON 不是数组。"

/-- `model._parse_tasks` on raw response text: extraction, `json.loads`
(whose `JSONDecodeError` is a `ValueError` caught by the caller),
normalization, then the validation loop. -/
def parseTasksRaw (parse : String → Option JVal) (raw : String) :
    Except String (List TaskPayload) :=
  match parse (extractJsonPayload parse raw) with
  | none => .error "JSONDecodeError"
  | some data =>
    match normalizeTasksData data with
    | .error e => .error e
    | .ok items => parseTasksData items

/-- Validity of one array item under `_parse_tasks`' checks, stated as the
claim does: an object whose key set is exactly the three required keys,
with a string `text` and boolean `done` and `pinned`. -/
def validTaskItem (v : JVal) : Bool :=
  match v with
  | .obj fields =>
    keysMatch fields
      && (match List.lookup "text" fields with
          | some (.str _) => true
          | _ => false)
      && (match List.lookup "done" fields with
          | some (.bool _) => true
          | _ => false)
      && (match List.lookup "pinned" fields with
          | some (.bool _) => true
          | _ => false)
  | _ => false

/-- Whether an item counts towards `pinned_count`. -/
def hasPinnedTrue (v : JVal) : Bool :=
  match v with
  | .obj fields =>
    match List.lookup "pinned" fields with
    | some (.bool true) => true
    | _ => false
  | _ => false

/-- The number of items with `pinned = true` across the array. -/
def pinnedTrueCount (items : List JVal) : Nat :=
  items.countP hasPinnedTrue

/-- The payload `_parse_tasks` builds from a (valid) item: the stripped
text and the two flags (defaults are irrelevant: validity guarantees the
lookups succeed). -/
def itemPayload (v : JVal) : TaskPayload :=
  match v with
  | .obj fields =>
    { text := pyStrip (match List.lookup "text" fields with
        | some (.str s) => s
        | _ => "")
      done := (match List.lookup "done" fields with
        | some (.bool b) => b
        | _ => false)
      pinned := (match List.lookup "pinned" fields with
        | some (.bool b) => b
        | _ => false) }
  | _ => ⟨"", false, false⟩

/-! ### `storage.py` — the persistence store -/

/-- `storage.TaskRecord`. -/
structure TaskRecord where
  text : String
  done : Bool
  pinned : Bool
deriving Repr, DecidableEq, Inhabited

/-- A row of the SQLite `tasks` table (`storage.init_db`): `done` and
`pinned` are stored as the integers `int(bool(x))`. The autoincrement `id`
plays no role in any query and is omitted. -/
structure TaskRow where
  task_date : String
  position : Nat
  text : String
  done : Int
  pinned : Int
deriving Repr, DecidableEq

/-- `int(bool(b))`. -/
def boolToInt (b : Bool) : Int := if b then 1 else 0

/-- The persistent state `storage.py` touches: the `tasks` table, the
single `api_keys` row, and the files read during migration, modelled
post-`json.loads`: `none` stands for a file that is missing, unreadable or
unparseable — cases the source collapses into "no data". The
`updated_at` timestamp of `api_keys` is never read back and is omitted. -/
structure StorageState where
  rows : List TaskRow
  apiKey : Option String
  archiveFile : String → Option JVal
  legacyArchiveFile : String → Option JVal
  legacyApiKeyFile : Option JVal

/-- The rows `save_tasks_for_date` inserts: `(iso, idx, text, done,
pinned)` for `idx, t in enumerate(items)`, with the counter starting at
`i`. -/
def enumRowsFrom (iso : String) (i : Nat) : List TaskRecord → List TaskRow
  | [] => []
  | t :: ts =>
    ⟨iso, i, t.text, boolToInt t.done, boolToInt t.pinned⟩ ::
      enumRowsFrom iso (i + 1) ts

/-- `storage.save_tasks_for_date`: `DELETE FROM tasks WHERE task_date = ?`
then `INSERT` one row per task with its 0-based position. -/
def saveTasksForDate (st : StorageState) (iso : String)
    (tasks : List TaskRecord) : StorageState :=
  { st with
    rows := st.rows.filter (fun r => !(r.task_date == iso))
      ++ enumRowsFrom iso 0 tasks }

/-- Insert into a position-sorted row list (`ORDER BY position ASC`;
positions are unique per date thanks to the `(task_date, position)` unique
index, so any correct sort yields the same list). -/
def insertByPos (r : TaskRow) : List TaskRow → List TaskRow
  | [] => [r]
  | x :: xs =>
    if r.position ≤ x.position then r :: x :: xs else x :: insertByPos r xs

/-- Sort rows by position (`ORDER BY position ASC`). -/
def sortByPos : List TaskRow → List TaskRow
  | [] => []
  | x :: xs => insertByPos x (sortByPos xs)

/-- `TaskRecord(r["text"], bool(r["done"]), bool(r["pinned"]))`. -/
def recordOfRow (r : TaskRow) : TaskRecord :=
  ⟨r.text, r.done != 0, r.pinned != 0⟩

/-- The `SELECT text, done, pinned FROM tasks WHERE task_date = ? ORDER BY
position ASC` of `load_tasks_for_date`, mapped to records. -/
def selectTasks (st : StorageState) (iso : String) : List TaskRecord :=
  (sortByPos (st.rows.filter (fun r => r.task_date == iso))).map recordOfRow

/-- `storage._read_tasks_from_json` on one parsed legacy array: skip
non-objects and items whose `text` is not a string; `done`/`pinned`
default to `False` and are coerced with `bool(...)`; the text is used as
is. -/
def readItems : List JVal → List TaskRecord
  | [] => []
  | item :: rest =>
    match item with
    | .obj fields =>
      match List.lookup "text" fields with
      | some (.str s) =>
        ⟨s, truthyOpt (List.lookup "done" fields),
            truthyOpt (List.lookup "pinned" fields)⟩ :: readItems rest
      | _ => readItems rest
    | _ => readItems rest

/-- `storage._read_tasks_from_json` on a file: missing, unreadable or
unparseable files (`none`) and non-list JSON give `[]`. -/
def readTasksFromJson (content : Option JVal) : List TaskRecord :=
  match content with
  | some (.arr items) => readItems items
  | _ => []

/-- One item of the legacy array as the claim describes it: an object with
a string `text` yields a record with that text unchanged, `done`/`pinned`
defaulting to false and otherwise coerced by truthiness; anything else is
skipped. -/
def legacyItemRecord (v : JVal) : Option TaskRecord :=
  match v with
  | .obj fields =>
    match List.lookup "text" fields with
    | some (.str s) =>
      some ⟨s, truthyOpt (List.lookup "done" fields),
        truthyOpt (List.lookup "pinned" fields)⟩
    | _ => none
  | _ => none

/-- `storage._migrate_tasks_from_json`: try the current archive path, then
the legacy archive path; the first non-empty result wins; else `[]`. -/
def migrateTasksFromJson (st : StorageState) (iso : String) :
    List TaskRecord :=
  let t1 := readTasksFromJson (st.archiveFile iso)
  if !t1.isEmpty then t1
  else
    let t2 := readTasksFromJson (st.legacyArchiveFile iso)
    if !t2.isEmpty then t2 else []

/-- `storage.load_tasks_for_date`: the stored rows if any; else migration,
which persists a non-empty migrated list before returning it; else `[]`.
Returns the list together with the possibly-updated store state. -/
def loadTasksForDate (st : StorageState) (iso : String) :
    List TaskRecord × StorageState :=
  let recs := selectTasks st iso
  if !recs.isEmpty then (recs, st)
  else
    let migrated := migrateTasksFromJson st iso
    if !migrated.isEmpty then (migrated, saveTasksForDate st iso migrated)
    else ([], st)

/-- `storage.save_api_key`: upsert the single `api_keys` row. -/
def saveApiKey (st : StorageState) (key : String) : StorageState :=
  { st with apiKey := some key }

/-- `storage._load_api_key_from_json`: the legacy `apikey.json` holds
`{"api_key": <string>}`; the stripped key when non-empty, else `None`. -/
def legacyApiKeyFromJson (st : StorageState) : Option String :=
  match st.legacyApiKeyFile with
  | some (.obj fields) =>
    match List.lookup "api_key" fields with
    | some (.str k) => if (pyStrip k).isEmpty then none else some (pyStrip k)
    | _ => none
  | _ => none

/-- `storage.load_api_key`: the stored key stripped when its strip is
non-empty; else the legacy file's key, persisted forward when found;
else `None`. -/
def loadApiKey (st : StorageState) : Option String × StorageState :=
  let stored : Option String :=
    match st.apiKey with
    | some k => if (pyStrip k).isEmpty then none else some (pyStrip k)
    | none => none
  match stored with
  | some k => (some k, st)
  | none =>
    match legacyApiKeyFromJson st with
    | some lk => (some lk, saveApiKey st lk)
    | none => (none, st)

/-- Concrete fixture: an empty store whose current archive directory holds
one task for 2024-01-01 (a legacy file pending migration). -/
def legacyOnlyState : StorageState where
  rows := []
  apiKey := none
  archiveFile := fun d =>
    if d == "2024-01-01"
    then some (.arr [.obj [("text", .str "x"), ("done", .bool false),
      ("pinned", .bool false)]])
    else none
  legacyArchiveFile := fun _ => none
  legacyApiKeyFile := none

/-- Concrete fixture: an empty store whose current archive file for
2024-01-02 parses successfully to the empty JSON array while the legacy
archive file holds one task. -/
def emptyThenLegacyState : StorageState where
  rows := []
  apiKey := none
  archiveFile := fun d => if d == "2024-01-02" then some (.arr []) else none
  legacyArchiveFile := fun d =>
    if d == "2024-01-02"
    then some (.arr [.obj [("text", .str "x"), ("done", .bool false),
      ("pinned", .bool false)]])
    else none
  legacyApiKeyFile := none

/-- Concrete fixture: a completely empty store. -/
def emptyState : StorageState where
  rows := []
  apiKey := none
  archiveFile := fun _ => none
  legacyArchiveFile := fun _ => none
  legacyApiKeyFile := none

/-! ### Characterization of the scanning loops -/

theorem findIdxFrom_shift (p : Task → Bool) (n : Nat) (l : List Task) :
    findIdxFrom p n l = (findIdxFrom p 0 l).map (· + n) := by
  induction l generalizing n with
  | nil => simp [findIdxFrom]
  | cons t ts ih =>
    by_cases hp : p t
    · rw [findIdxFrom, findIdxFrom, if_pos hp, if_pos hp]
      simp
    · rw [findIdxFrom, findIdxFrom, if_neg hp, if_neg hp, ih (n + 1), ih 1]
      cases findIdxFrom p 0 ts with
      | none => rfl
      | some k =>
        simp
        omega

theorem findIdxFrom_none (p : Task → Bool) (n : Nat) (l : List Task) :
    findIdxFrom p n l = none ↔ ∀ t ∈ l, p t = false := by
  induction l generalizing n with
  | nil => simp [findIdxFrom]
  | cons t ts ih =>
    by_cases hp : p t
    · rw [findIdxFrom, if_pos hp]
      simp [hp]
    · rw [findIdxFrom, if_neg hp]
      rw [ih (n + 1)]
      simp [Bool.eq_false_iff.mpr hp]

theorem findIdxFrom_some (p : Task → Bool) (l : List Task) (i : Nat) :
    findIdxFrom p 0 l = some i ↔
      i < l.length ∧ p (l.getD i default) = true ∧
        ∀ j < i, p (l.getD j default) = false := by
  induction l generalizing i with
  | nil => simp [findIdxFrom]
  | cons t ts ih =>
    by_cases hp : p t
    · rw [findIdxFrom, if_pos hp]
      constructor
      · intro h
        cases h
        exact ⟨Nat.succ_pos _, hp, fun j hj => absurd hj (by omega)⟩
      · rintro ⟨-, -, hfirst⟩
        rcases Nat.eq_zero_or_pos i with h0 | h0
        · rw [h0]
        · have h1 := hfirst 0 h0
          rw [List.getD_cons_zero] at h1
          rw [hp] at h1
          cases h1
    · rw [findIdxFrom, if_neg hp, findIdxFrom_shift p 1 ts]
      constructor
      · intro h
        rcases Option.map_eq_some'.mp h with ⟨k, hk, hik⟩
        have hik' : i = k + 1 := hik.symm
        subst hik'
        rcases (ih k).mp hk with ⟨hlen, hpk, hfirst⟩
        refine ⟨by simp only [List.length_cons]; omega, by simpa using hpk, ?_⟩
        intro j hj
        cases j with
        | zero => simpa using Bool.eq_false_iff.mpr hp
        | succ j => simpa using hfirst j (by omega)
      · rintro ⟨hlen, hpi, hfirst⟩
        cases i with
        | zero =>
          rw [List.getD_cons_zero] at hpi
          exact absurd hpi hp
        | succ k =>
          have hk : findIdxFrom p 0 ts = some k := by
            refine (ih k).mpr ⟨?_, ?_, ?_⟩
            · simp only [List.length_cons] at hlen
              omega
            · simpa using hpi
            · intro j hj
              simpa using hfirst (j + 1) (by omega)
          rw [hk]
          rfl

theorem currentTaskIndex_pos {l : List Task} {k : Nat}
    (h : findIdxFrom pinnedActive 0 l = some k) :
    currentTaskIndex l = some k := by
  unfold currentTaskIndex
  rw [h]

theorem currentTaskIndex_neg {l : List Task}
    (h : findIdxFrom pinnedActive 0 l = none) :
    currentTaskIndex l = findIdxFrom (fun t => !t.done) 0 l := by
  unfold currentTaskIndex
  rw [h]

/-- C1. `_current_task_index` returns the index of the first task, in list
order, that is pinned and not done; when no such task exists, the index of
the first task that is not done; and `none` exactly when every task is done
(in particular on the empty list). "First in list order with property `p`"
is stated explicitly: the index is in range, its task satisfies `p`, and
the task at every earlier index does not. -/
theorem current_task_selection (l : List Task) :
    (currentTaskIndex l = none ↔ ∀ t ∈ l, t.done = true)
    ∧ (∀ i, currentTaskIndex l = some i →
        (∃ t ∈ l, pinnedActive t = true) →
          i < l.length ∧ pinnedActive (l.getD i default) = true ∧
            ∀ j < i, pinnedActive (l.getD j default) = false)
    ∧ (∀ i, currentTaskIndex l = some i →
        (∀ t ∈ l, pinnedActive t = false) →
          i < l.length ∧ (l.getD i default).done = false ∧
            ∀ j < i, (l.getD j default).done = true) := by
  refine ⟨?_, ?_, ?_⟩
  · constructor
    · intro h
      cases hfp : findIdxFrom pinnedActive 0 l with
      | some k =>
        rw [currentTaskIndex_pos hfp] at h
        cases h
      | none =>
        rw [currentTaskIndex_neg hfp] at h
        intro t ht
        have h2 := (findIdxFrom_none _ 0 l).mp h t ht
        simpa using h2
    · intro hall
      have h1 : findIdxFrom pinnedActive 0 l = none := by
        rw [findIdxFrom_none]
        intro t ht
        simp [pinnedActive, hall t ht]
      rw [currentTaskIndex_neg h1, findIdxFrom_none]
      intro t ht
      simp [hall t ht]
  · intro i hi hex
    cases hfp : findIdxFrom pinnedActive 0 l with
    | none =>
      exfalso
      rcases hex with ⟨t, ht, hpt⟩
      have h2 := (findIdxFrom_none pinnedActive 0 l).mp hfp t ht
      rw [h2] at hpt
      cases hpt
    | some k =>
      have hk := currentTaskIndex_pos hfp
      rw [hi] at hk
      injection hk with hk
      subst hk
      exact (findIdxFrom_some pinnedActive l i).mp hfp
  · intro i hi hall
    have h1 : findIdxFrom pinnedActive 0 l = none :=
      (findIdxFrom_none _ 0 l).mpr hall
    have h2 := currentTaskIndex_neg h1
    rw [hi] at h2
    rcases (findIdxFrom_some (fun t => !t.done) l i).mp h2.symm with
      ⟨hlen, hpi, hfirst⟩
    refine ⟨hlen, by simpa using hpi, ?_⟩
    intro j hj
    have h3 := hfirst j hj
    simpa using h3

/-! ### Display ordering -/

theorem map_succ_filter (f g : Nat → Bool) (hfg : ∀ i, f (i + 1) = g i)
    (n : Nat) (xs : List Nat) :
    ((xs.map Nat.succ).filter f).map (· + n)
      = (xs.filter g).map (· + (n + 1)) := by
  induction xs with
  | nil => rfl
  | cons a xs ih =>
    rw [List.map_cons]
    by_cases hg : g a = true
    · rw [List.filter_cons_of_pos (by rw [Nat.succ_eq_add_one, hfg]; exact hg),
        List.filter_cons_of_pos hg, List.map_cons, List.map_cons]
      rw [ih]
      refine congrArg₂ List.cons (by omega) rfl
    · rw [List.filter_cons_of_neg (by rw [Nat.succ_eq_add_one, hfg]; exact hg),
        List.filter_cons_of_neg hg]
      exact ih

theorem indicesWhereFrom_eq (p : Task → Bool) (n : Nat) (l : List Task) :
    indicesWhereFrom p n l =
      ((List.range l.length).filter
        (fun i => p (l.getD i default))).map (· + n) := by
  induction l generalizing n with
  | nil => simp [indicesWhereFrom]
  | cons t ts ih =>
    have hr : List.range (t :: ts).length
        = 0 :: (List.range ts.length).map Nat.succ := by
      simpa using List.range_succ_eq_map ts.length
    rw [indicesWhereFrom, hr]
    by_cases hp : p t = true
    · rw [if_pos hp, List.filter_cons_of_pos (by simpa using hp),
        List.map_cons, ih (n + 1)]
      have h0 : (0 : Nat) + n = n := Nat.zero_add n
      rw [h0]
      refine congrArg₂ List.cons rfl ?_
      exact (map_succ_filter (fun i => p ((t :: ts).getD i default))
        (fun i => p (ts.getD i default)) (fun i => rfl) n
        (List.range ts.length)).symm
    · rw [if_neg hp, List.filter_cons_of_neg (by simpa using hp), ih (n + 1)]
      exact (map_succ_filter (fun i => p ((t :: ts).getD i default))
        (fun i => p (ts.getD i default)) (fun i => rfl) n
        (List.range ts.length)).symm

theorem map_add_zero (xs : List Nat) : xs.map (· + 0) = xs := by
  induction xs with
  | nil => rfl
  | cons a xs ih => simp [ih]

/-- C2. `_sorted_indices_for_display` is a stable partition of the index
range: it equals the indices of the pinned entries in their original
relative order followed by the indices of the non-pinned entries in their
original relative order, and it is a permutation of `range l.length`
(exactly the indices of the list, each once) — for any list, including the
empty, all-pinned and all-unpinned cases. The function only reads `l`, so
the underlying list is untouched by construction. -/
theorem display_order_stable_partition (l : List Task) :
    sortedIndicesForDisplay l =
      (List.range l.length).filter (fun i => (l.getD i default).pinned)
        ++ (List.range l.length).filter (fun i => !(l.getD i default).pinned)
    ∧ (sortedIndicesForDisplay l).Perm (List.range l.length) := by
  have he : sortedIndicesForDisplay l =
      (List.range l.length).filter (fun i => (l.getD i default).pinned)
        ++ (List.range l.length).filter
            (fun i => !(l.getD i default).pinned) := by
    unfold sortedIndicesForDisplay
    rw [indicesWhereFrom_eq _ 0 l, indicesWhereFrom_eq _ 0 l,
      map_add_zero, map_add_zero]
  refine ⟨he, ?_⟩
  rw [he]
  exact List.filter_append_perm (fun i => (l.getD i default).pinned) _

/-! ### Toggling a single task -/

/-- C9. Toggling `done` (resp. `pinned`) at a valid index `i` flips exactly
that one field of that one entry: the list keeps its length, the entry at
`i` keeps its `text` and its other flag, and every other position of the
list is unchanged — no cascading adjustment of other entries. -/
theorem toggle_flips_one_field (l : List Task) (i : Nat) (h : i < l.length) :
    ((toggleDone l i).length = l.length
      ∧ (toggleDone l i)[i]? =
          (l[i]?).map (fun t => Task.mk t.text (!t.done) t.pinned)
      ∧ ∀ j, j ≠ i → (toggleDone l i)[j]? = l[j]?)
    ∧ ((togglePin l i).length = l.length
      ∧ (togglePin l i)[i]? =
          (l[i]?).map (fun t => Task.mk t.text t.done (!t.pinned))
      ∧ ∀ j, j ≠ i → (togglePin l i)[j]? = l[j]?) := by
  have hget : l[i]? = some l[i] := List.getElem?_eq_getElem h
  constructor
  · unfold toggleDone
    rw [hget]
    refine ⟨by simp, ?_, ?_⟩
    · rw [List.getElem?_set_self h]
      rfl
    · intro j hj
      exact List.getElem?_set_ne (fun hij => hj hij.symm)
  · unfold togglePin
    rw [hget]
    refine ⟨by simp, ?_, ?_⟩
    · rw [List.getElem?_set_self h]
      rfl
    · intro j hj
      exact List.getElem?_set_ne (fun hij => hj hij.symm)

/-- Witness for `toggle_flips_one_field` at the concrete two-task list
`[{"a", done, unpinned}, {"b", not done, pinned}]` and index 1. -/
theorem toggle_flips_one_field_witness :
    (toggleDone [Task.mk "a" true false, Task.mk "b" false true] 1).length = 2
      ∧ (toggleDone [Task.mk "a" true false, Task.mk "b" false true] 1)[1]? =
          some (Task.mk "b" true true) := by
  have h := toggle_flips_one_field
    [Task.mk "a" true false, Task.mk "b" false true] 1 (by decide)
  refine ⟨h.1.1, ?_⟩
  rw [h.1.2.1]
  rfl

/-! ### Adapter validation (`_parse_tasks`) -/

theorem validTaskItem_elim {v : JVal} (hv : validTaskItem v = true) :
    ∃ fields text d p, v = .obj fields ∧ keysMatch fields = true ∧
      List.lookup "text" fields = some (.str text) ∧
      List.lookup "done" fields = some (.bool d) ∧
      List.lookup "pinned" fields = some (.bool p) := by
  cases v with
  | obj fields =>
    simp only [validTaskItem, Bool.and_eq_true] at hv
    obtain ⟨⟨⟨hk, ht⟩, hd⟩, hp⟩ := hv
    refine ⟨fields, ?_⟩
    cases hlt : List.lookup "text" fields with
    | none => rw [hlt] at ht; cases ht
    | some w =>
      rw [hlt] at ht
      cases w with
      | str text =>
        cases hld : List.lookup "done" fields with
        | none => rw [hld] at hd; cases hd
        | some w2 =>
          rw [hld] at hd
          cases w2 with
          | bool d =>
            cases hlp : List.lookup "pinned" fields with
            | none => rw [hlp] at hp; cases hp
            | some w3 =>
              rw [hlp] at hp
              cases w3 with
              | bool p => exact ⟨text, d, p, rfl, hk, rfl, rfl, rfl⟩
              | null => cases hp
              | num n => cases hp
              | str s => cases hp
              | arr xs => cases hp
              | obj f2 => cases hp
          | null => cases hd
          | num n => cases hd
          | str s => cases hd
          | arr xs => cases hd
          | obj f2 => cases hd
      | null => cases ht
      | bool b => cases ht
      | num n => cases ht
      | arr xs => cases ht
      | obj f2 => cases ht
  | null => cases hv
  | bool b => cases hv
  | num n => cases hv
  | str s => cases hv
  | arr xs => cases hv

theorem parseItem_valid {item : JVal} (hv : validTaskItem item = true) :
    parseItem item = .ok (itemPayload item) := by
  obtain ⟨fields, text, d, p, rfl, hk, hlt, hld, hlp⟩ := validTaskItem_elim hv
  simp [parseItem, itemPayload, hk, hlt, hld, hlp]

theorem parseItem_ok_valid {item : JVal} {pl : TaskPayload}
    (h : parseItem item = .ok pl) :
    validTaskItem item = true ∧ pl = itemPayload item := by
  cases item with
  | obj fields =>
    rw [parseItem] at h
    split at h
    · split at h
      · split at h
        · injection h with h
          constructor
          · simp [validTaskItem, *]
          · rw [← h]
            simp [itemPayload, *]
        · exact Except.noConfusion h
      · exact Except.noConfusion h
    · exact Except.noConfusion h
  | null => exact Except.noConfusion h
  | bool b => exact Except.noConfusion h
  | num n => exact Except.noConfusion h
  | str s => exact Except.noConfusion h
  | arr xs => exact Except.noConfusion h

theorem parseTasksLoop_cons_ok {item : JVal} {pl : TaskPayload}
    (hpl : parseItem item = .ok pl) (rest : List JVal) (cnt : Nat)
    (acc : List TaskPayload) :
    parseTasksLoop (item :: rest) cnt acc
      = parseTasksLoop rest (if pl.pinned then cnt + 1 else cnt)
          (acc ++ [pl]) := by
  rw [parseTasksLoop, hpl]

theorem parseTasksLoop_cons_error {item : JVal} {msg : String}
    (hpl : parseItem item = .error msg) (rest : List JVal) (cnt : Nat)
    (acc : List TaskPayload) :
    parseTasksLoop (item :: rest) cnt acc = .error msg := by
  rw [parseTasksLoop, hpl]

theorem parseTasksLoop_invalid (items : List JVal)
    (h : ¬ ∀ v ∈ items, validTaskItem v = true) (cnt : Nat)
    (acc : List TaskPayload) :
    ∃ msg, parseTasksLoop items cnt acc = .error msg := by
  induction items generalizing cnt acc with
  | nil => exact absurd (by simp) h
  | cons item rest ih =>
    by_cases hv : validTaskItem item = true
    · have hrest : ¬ ∀ v ∈ rest, validTaskItem v = true := by
        intro hall
        exact h (by
          intro v hmem
          rcases List.mem_cons.mp hmem with rfl | hmem
          · exact hv
          · exact hall v hmem)
      rcases ih hrest (if (itemPayload item).pinned then cnt + 1 else cnt)
        (acc ++ [itemPayload item]) with ⟨msg, hmsg⟩
      exact ⟨msg, (parseTasksLoop_cons_ok (parseItem_valid hv) _ _ _).trans hmsg⟩
    · cases hpi : parseItem item with
      | ok pl => exact absurd (parseItem_ok_valid hpi).1 hv
      | error msg => exact ⟨msg, parseTasksLoop_cons_error hpi _ _ _⟩

theorem parseTasksLoop_valid (items : List JVal)
    (h : ∀ v ∈ items, validTaskItem v = true) (cnt : Nat)
    (acc : List TaskPayload) :
    parseTasksLoop items cnt acc
      = .ok (cnt + pinnedTrueCount items, acc ++ items.map itemPayload) := by
  induction items generalizing cnt acc with
  | nil => simp [parseTasksLoop, pinnedTrueCount]
  | cons item rest ih =>
    have hv := h _ (List.mem_cons_self _ _)
    have hrest : ∀ v ∈ rest, validTaskItem v = true :=
      fun v hmem => h v (List.mem_cons_of_mem _ hmem)
    rw [parseTasksLoop_cons_ok (parseItem_valid hv) _ _ _, ih hrest]
    obtain ⟨fields, text, d, p, rfl, hk, hlt, hld, hlp⟩ :=
      validTaskItem_elim hv
    have hpay : itemPayload (.obj fields) = ⟨pyStrip text, d, p⟩ := by
      simp [itemPayload, hlt, hld, hlp]
    have hcount : pinnedTrueCount (JVal.obj fields :: rest)
        = pinnedTrueCount rest + (if p then 1 else 0) := by
      simp only [pinnedTrueCount, List.countP_cons, hasPinnedTrue, hlp]
      cases p <;> simp
    rw [hcount, List.map_cons, hpay]
    cases p <;> simp <;> omega

/-- C5. `_parse_tasks` validation is all-or-nothing over the extracted
array: it succeeds (accepting the whole array, one payload per item) iff
every item is an object with exactly the keys `text`/`done`/`pinned` of
types string/boolean/boolean and at most one item has `pinned = true`;
otherwise it returns an error and accepts no element. -/
theorem parse_tasks_all_or_nothing (items : List JVal) :
    ((∃ ts, parseTasksData items = .ok ts) ↔
      (∀ v ∈ items, validTaskItem v = true) ∧ pinnedTrueCount items ≤ 1)
    ∧ (∀ ts, parseTasksData items = .ok ts → ts.length = items.length)
    ∧ (((∀ v ∈ items, validTaskItem v = true) ∧ pinnedTrueCount items ≤ 1)
        ∨ ∃ msg, parseTasksData items = .error msg) := by
  have hok : ∀ ts, parseTasksData items = .ok ts →
      ((∀ v ∈ items, validTaskItem v = true) ∧ pinnedTrueCount items ≤ 1)
        ∧ ts = items.map itemPayload := by
    intro ts hts
    by_cases hall : ∀ v ∈ items, validTaskItem v = true
    · simp only [parseTasksData, parseTasksLoop_valid items hall 0 []] at hts
      by_cases hc : 0 + pinnedTrueCount items > 1
      · rw [if_pos hc] at hts
        cases hts
      · rw [if_neg hc] at hts
        injection hts with h
        exact ⟨⟨hall, by omega⟩, by simpa using h.symm⟩
    · rcases parseTasksLoop_invalid items hall 0 [] with ⟨msg, hmsg⟩
      simp only [parseTasksData, hmsg] at hts
      exact Except.noConfusion hts
  have hmk : ((∀ v ∈ items, validTaskItem v = true)
      ∧ pinnedTrueCount items ≤ 1) →
      parseTasksData items = .ok (items.map itemPayload) := by
    rintro ⟨hall, hc⟩
    simp only [parseTasksData, parseTasksLoop_valid items hall 0 []]
    rw [if_neg (by omega)]
    simp
  refine ⟨⟨fun ⟨ts, hts⟩ => (hok ts hts).1, fun h => ⟨_, hmk h⟩⟩, ?_, ?_⟩
  · intro ts hts
    rw [(hok ts hts).2]
    exact List.length_map _ _
  · by_cases h : (∀ v ∈ items, validTaskItem v = true)
      ∧ pinnedTrueCount items ≤ 1
    · exact Or.inl h
    · refine Or.inr ?_
      cases he : parseTasksData items with
      | error msg => exact ⟨msg, rfl⟩
      | ok ts => exact absurd (hok ts he).1 h

/-! ### Stripping of task text -/

theorem head?_dropWhile_not (p : Char → Bool) (l : List Char) :
    ((l.dropWhile p).head?.all fun c => !p c) = true := by
  induction l with
  | nil => rfl
  | cons a l ih =>
    rw [List.dropWhile_cons]
    by_cases hp : p a = true
    · rw [if_pos hp]
      exact ih
    · rw [if_neg hp]
      simp [Option.all]
      simpa using hp

theorem getLast?_dropWhile (p : Char → Bool) (l : List Char)
    (h : l.dropWhile p ≠ []) : (l.dropWhile p).getLast? = l.getLast? := by
  induction l with
  | nil => simp [List.dropWhile] at h
  | cons a l ih =>
    rw [List.dropWhile_cons] at h ⊢
    by_cases hp : p a = true
    · rw [if_pos hp] at h ⊢
      rw [ih h]
      have hl : l ≠ [] := by
        intro he
        rw [he] at h
        simp [List.dropWhile] at h
      cases l with
      | nil => exact absurd rfl hl
      | cons b l => rw [List.getLast?_cons_cons]
    · rw [if_neg hp]

theorem pyStrip_ends (s : String) :
    ((pyStrip s).data.head?.all fun c => !c.isWhitespace) = true
    ∧ ((pyStrip s).data.getLast?.all fun c => !c.isWhitespace) = true := by
  show ((((s.data.dropWhile Char.isWhitespace).reverse.dropWhile
      Char.isWhitespace).reverse.head?.all fun c => !c.isWhitespace) = true)
    ∧ ((((s.data.dropWhile Char.isWhitespace).reverse.dropWhile
      Char.isWhitespace).reverse.getLast?.all fun c => !c.isWhitespace) = true)
  constructor
  · rw [List.head?_reverse]
    by_cases hYe : (s.data.dropWhile Char.isWhitespace).reverse.dropWhile
        Char.isWhitespace = []
    · rw [hYe]
      rfl
    · rw [getLast?_dropWhile _ _ hYe, List.getLast?_reverse]
      exact head?_dropWhile_not _ _
  · rw [List.getLast?_reverse]
    exact head?_dropWhile_not _ _

/-- C7 counterexample to non-emptiness: the adapter accepts an item whose
`text` is the blank string `" "` and produces a payload whose text is the
empty string — ingestion does not enforce non-empty text. -/
theorem parse_tasks_empty_text_cex :
    parseTasksData [.obj [("text", .str " "), ("done", .bool false),
        ("pinned", .bool false)]]
      = .ok [⟨"", false, false⟩]
    ∧ (TaskPayload.mk "" false false).text.isEmpty = true := by
  constructor
  · rfl
  · rfl

/-- C7 (amended). Every payload `_parse_tasks` produces has its text equal
to the stripped (`str.strip()`) text of the corresponding array item — in
particular it carries no leading or trailing whitespace — but the result
may be the empty string: non-emptiness is not enforced. -/
theorem parse_tasks_strips_text (items : List JVal) (ts : List TaskPayload)
    (h : parseTasksData items = .ok ts) :
    ts = items.map itemPayload
    ∧ (∀ i, i < ts.length → ∃ fields s,
        items.getD i JVal.null = .obj fields
        ∧ List.lookup "text" fields = some (.str s)
        ∧ (ts.getD i default).text = pyStrip s)
    ∧ (∀ i, i < ts.length →
        ((ts.getD i default).text.data.head?.all
          (fun c => !c.isWhitespace)) = true
        ∧ ((ts.getD i default).text.data.getLast?.all
          (fun c => !c.isWhitespace)) = true) := by
  have hall : ∀ v ∈ items, validTaskItem v = true := by
    by_contra hno
    rcases parseTasksLoop_invalid items hno 0 [] with ⟨msg, hmsg⟩
    simp only [parseTasksData, hmsg] at h
    exact Except.noConfusion h
  have hmap : ts = items.map itemPayload := by
    simp only [parseTasksData, parseTasksLoop_valid items hall 0 []] at h
    by_cases hc : 0 + pinnedTrueCount items > 1
    · rw [if_pos hc] at h
      cases h
    · rw [if_neg hc] at h
      injection h with h
      simpa using h.symm
  have hlen : ts.length = items.length := by
    rw [hmap]
    exact List.length_map _ _
  have hget : ∀ i, i < ts.length → ∃ fields s,
      items.getD i JVal.null = .obj fields
      ∧ List.lookup "text" fields = some (.str s)
      ∧ (ts.getD i default).text = pyStrip s := by
    intro i hi
    have hlen' : i < items.length := by omega
    have hit : items.getD i JVal.null ∈ items := by
      rw [List.getD_eq_getElem?_getD, List.getElem?_eq_getElem hlen']
      simpa using List.getElem_mem hlen'
    obtain ⟨fields, text, d, p, heq, hk, hlt, hld, hlp⟩ :=
      validTaskItem_elim (hall _ hit)
    refine ⟨fields, text, heq, hlt, ?_⟩
    have : ts.getD i default = itemPayload (items.getD i JVal.null) := by
      rw [hmap]
      rw [List.getD_eq_getElem?_getD, List.getD_eq_getElem?_getD,
        List.getElem?_map]
      have : i < items.length := by omega
      rw [List.getElem?_eq_getElem this]
      simp
    rw [this, heq]
    simp [itemPayload, hlt]
  refine ⟨hmap, hget, ?_⟩
  intro i hi
  rcases hget i hi with ⟨fields, s, -, -, htext⟩
  rw [htext]
  exact pyStrip_ends s

/-- Witness for `parse_tasks_strips_text`: on the single item with text
`"  a b "` the adapter produces exactly the payload with stripped text
`"a b"`. -/
theorem parse_tasks_strips_text_witness :
    ([⟨"a b", true, false⟩] : List TaskPayload)
      = [JVal.obj [("text", .str "  a b "), ("done", .bool true),
          ("pinned", .bool false)]].map itemPayload :=
  (parse_tasks_strips_text
    [JVal.obj [("text", .str "  a b "), ("done", .bool true),
      ("pinned", .bool false)]]
    [⟨"a b", true, false⟩] (by rfl)).1

/-! ### Extraction and normalization (`_extract_json_payload`,
`_normalize_tasks_data`) -/

theorem unwrapKey_none_iff (fields : List (String × JVal)) (keys : List String) :
    unwrapKey fields keys = none ↔
      ∀ k ∈ keys, ∀ xs, ¬ List.lookup k fields = some (.arr xs) := by
  induction keys with
  | nil => simp [unwrapKey]
  | cons k ks ih =>
    cases hl : List.lookup k fields with
    | none =>
      have hL : unwrapKey fields (k :: ks) = unwrapKey fields ks := by
        rw [unwrapKey, hl]
      rw [hL, ih]
      simp [List.forall_mem_cons, hl]
    | some w =>
      cases w with
      | arr ws =>
        have hL : unwrapKey fields (k :: ks) = some ws := by
          rw [unwrapKey, hl]
        rw [hL]
        refine iff_of_false (by simp) ?_
        intro hall
        exact hall k (List.mem_cons_self _ _) ws hl
      | null =>
        have hL : unwrapKey fields (k :: ks) = unwrapKey fields ks := by
          rw [unwrapKey, hl]
        rw [hL, ih]
        simp [List.forall_mem_cons, hl]
      | bool b =>
        have hL : unwrapKey fields (k :: ks) = unwrapKey fields ks := by
          rw [unwrapKey, hl]
        rw [hL, ih]
        simp [List.forall_mem_cons, hl]
      | num n =>
        have hL : unwrapKey fields (k :: ks) = unwrapKey fields ks := by
          rw [unwrapKey, hl]
        rw [hL, ih]
        simp [List.forall_mem_cons, hl]
      | str s =>
        have hL : unwrapKey fields (k :: ks) = unwrapKey fields ks := by
          rw [unwrapKey, hl]
        rw [hL, ih]
        simp [List.forall_mem_cons, hl]
      | obj f2 =>
        have hL : unwrapKey fields (k :: ks) = unwrapKey fields ks := by
          rw [unwrapKey, hl]
        rw [hL, ih]
        simp [List.forall_mem_cons, hl]

/-- C6. The extraction pipeline: (1) raw text that parses is returned
unchanged; (2) otherwise the slice from the first `[` to the last `]`,
stripped, is returned when it parses — tried before (3) the `{`/`}` slice,
which is used only when the bracket pass for `[`/`]` produced nothing;
(4) when both passes fail the raw text is returned. Normalization: a
parsed array stands; an object with exactly the three task keys is
wrapped as a one-element array; an object holding a list under one of
`tasks`/`items`/`data`/`list` is unwrapped to the first such list (and the
scan finds one exactly when some of the four keys maps to a list); any
other shape (object without such a key, or a non-array scalar) is a
validation failure. -/
theorem extraction_and_normalization (parse : String → Option JVal)
    (raw : String) :
    ((parse raw).isSome = true → extractJsonPayload parse raw = raw)
    ∧ (parse raw = none →
        ∀ s e, pyFind raw '[' = some s → pyRFind raw ']' = some e → s < e →
          (parse (pyStrip (pySlice raw s (e + 1)))).isSome = true →
          extractJsonPayload parse raw = pyStrip (pySlice raw s (e + 1)))
    ∧ (parse raw = none → tryBracket parse raw '[' ']' = none →
        ∀ s e, pyFind raw '{' = some s → pyRFind raw '}' = some e → s < e →
          (parse (pyStrip (pySlice raw s (e + 1)))).isSome = true →
          extractJsonPayload parse raw = pyStrip (pySlice raw s (e + 1)))
    ∧ (parse raw = none → tryBracket parse raw '[' ']' = none →
        tryBracket parse raw '{' '}' = none →
        extractJsonPayload parse raw = raw)
    ∧ (∀ xs, normalizeTasksData (.arr xs) = .ok xs)
    ∧ (∀ fields, keysMatch fields = true →
        normalizeTasksData (.obj fields) = .ok [.obj fields])
    ∧ (∀ fields xs, keysMatch fields = false →
        unwrapKey fields ["tasks", "items", "data", "list"] = some xs →
        normalizeTasksData (.obj fields) = .ok xs)
    ∧ (∀ fields keys, unwrapKey fields keys = none ↔
        ∀ k ∈ keys, ∀ xs, ¬ List.lookup k fields = some (.arr xs))
    ∧ (∀ fields, keysMatch fields = false →
        unwrapKey fields ["tasks", "items", "data", "list"] = none →
        normalizeTasksData (.obj fields) = .error "返回 JSON 不是任务数组。")
    ∧ (normalizeTasksData .null = .error "返回的 JSON 不是数组。"
        ∧ (∀ b, normalizeTasksData (.bool b) = .error "返回的 JSON 不是数组。")
        ∧ (∀ n, normalizeTasksData (.num n) = .error "返回的 JSON 不是数组。")
        ∧ (∀ s, normalizeTasksData (.str s) = .error "返回的 JSON 不是数组。")) := by
  refine ⟨?_, ?_, ?_, ?_, fun xs => rfl, ?_, ?_, unwrapKey_none_iff, ?_, ?_⟩
  · intro h
    rw [extractJsonPayload, if_pos h]
  · intro hn s e hfind hrfind hlt hps
    have ht : tryBracket parse raw '[' ']'
        = some (pyStrip (pySlice raw s (e + 1))) := by
      simp only [tryBracket, hfind, hrfind]
      rw [if_pos hlt]
      simp only [hps, if_true]
    simp [extractJsonPayload, hn, ht]
  · intro hn h1 s e hfind hrfind hlt hps
    have ht : tryBracket parse raw '{' '}'
        = some (pyStrip (pySlice raw s (e + 1))) := by
      simp only [tryBracket, hfind, hrfind]
      rw [if_pos hlt]
      simp only [hps, if_true]
    simp [extractJsonPayload, hn, h1, ht]
  · intro hn h1 h2
    simp [extractJsonPayload, hn, h1, h2]
  · intro fields hk
    simp [normalizeTasksData, hk]
  · intro fields xs hk hu
    rw [normalizeTasksData, if_neg (by simp [hk]), hu]
  · intro fields hk hu
    rw [normalizeTasksData, if_neg (by simp [hk]), hu]
  · exact ⟨rfl, fun b => rfl, fun n => rfl, fun s => rfl⟩

/-! ### Legacy flat-file parsing (`_read_tasks_from_json`) -/

/-- C10. Legacy per-day flat-file parsing is lenient per item: the result
is exactly the in-order `filterMap` that skips non-objects and items whose
`text` is not a string, defaults a missing `done`/`pinned` to false,
coerces non-boolean values with Python truthiness and leaves the text
unstripped (shown concretely in the last conjunct: a kept blank-padded
text, a skipped number, a skipped object without string text, `done: 2`
coerced to true, `pinned: ""` coerced to false) — unlike the adapter's
all-or-nothing validation, no input makes it fail. -/
theorem legacy_read_per_item_lenient (items : List JVal) :
    readItems items = items.filterMap legacyItemRecord
    ∧ readTasksFromJson none = []
    ∧ readTasksFromJson (some (.arr items)) = readItems items
    ∧ readTasksFromJson (some (.obj [])) = []
    ∧ readItems [.obj [("text", .str "  x ")], .num 3,
        .obj [("done", .bool true)],
        .obj [("text", .str "y"), ("done", .num 2), ("pinned", .str "")]]
        = [⟨"  x ", false, false⟩, ⟨"y", true, false⟩] := by
  refine ⟨?_, rfl, rfl, rfl, rfl⟩
  induction items with
  | nil => rfl
  | cons item rest ih =>
    cases item with
    | obj fields =>
      cases hl : List.lookup "text" fields with
      | none => simp [readItems, legacyItemRecord, hl, ih, List.filterMap_cons]
      | some w =>
        cases w <;>
          simp [readItems, legacyItemRecord, hl, ih, List.filterMap_cons]
    | null => simp [readItems, legacyItemRecord, ih, List.filterMap_cons]
    | bool b => simp [readItems, legacyItemRecord, ih, List.filterMap_cons]
    | num n => simp [readItems, legacyItemRecord, ih, List.filterMap_cons]
    | str s => simp [readItems, legacyItemRecord, ih, List.filterMap_cons]
    | arr xs => simp [readItems, legacyItemRecord, ih, List.filterMap_cons]

/-! ### Store round-trip and migration -/

theorem enumRowsFrom_mem (iso : String) (ts : List TaskRecord) :
    ∀ i, ∀ r ∈ enumRowsFrom iso i ts, r.task_date = iso ∧ i ≤ r.position := by
  induction ts with
  | nil =>
    intro i r hr
    cases hr
  | cons t ts ih =>
    intro i r hr
    rcases List.mem_cons.mp hr with rfl | hr
    · exact ⟨rfl, Nat.le_refl _⟩
    · rcases ih (i + 1) r hr with ⟨h1, h2⟩
      exact ⟨h1, by omega⟩

theorem insertByPos_of_le (r : TaskRow) (xs : List TaskRow)
    (h : ∀ x ∈ xs, r.position ≤ x.position) : insertByPos r xs = r :: xs := by
  cases xs with
  | nil => rfl
  | cons x xs => rw [insertByPos, if_pos (h x (List.mem_cons_self _ _))]

theorem sortByPos_enumRows (iso : String) (ts : List TaskRecord) :
    ∀ i, sortByPos (enumRowsFrom iso i ts) = enumRowsFrom iso i ts := by
  induction ts with
  | nil => intro i; rfl
  | cons t ts ih =>
    intro i
    rw [enumRowsFrom, sortByPos, ih (i + 1)]
    refine insertByPos_of_le _ _ ?_
    intro x hx
    have h2 := (enumRowsFrom_mem iso ts (i + 1) x hx).2
    show i ≤ x.position
    omega

theorem map_recordOfRow_enumRows (iso : String) (ts : List TaskRecord) :
    ∀ i, (enumRowsFrom iso i ts).map recordOfRow = ts := by
  induction ts with
  | nil => intro i; rfl
  | cons t ts ih =>
    intro i
    rw [enumRowsFrom, List.map_cons, ih (i + 1)]
    refine congrArg₂ List.cons ?_ rfl
    show (⟨t.text, boolToInt t.done != 0, boolToInt t.pinned != 0⟩
      : TaskRecord) = t
    cases t with
    | mk text d p => cases d <;> cases p <;> rfl

theorem filter_save_rows (st : StorageState) (iso : String)
    (L : List TaskRecord) :
    (saveTasksForDate st iso L).rows.filter (fun r => r.task_date == iso)
      = enumRowsFrom iso 0 L := by
  show (st.rows.filter (fun r => !(r.task_date == iso))
      ++ enumRowsFrom iso 0 L).filter (fun r => r.task_date == iso)
    = enumRowsFrom iso 0 L
  rw [List.filter_append]
  have h1 : (st.rows.filter (fun r => !(r.task_date == iso))).filter
      (fun r => r.task_date == iso) = [] := by
    rw [List.filter_eq_nil_iff]
    intro a ha
    have hmem := List.mem_filter.mp ha
    simp only [Bool.not_eq_true'] at hmem
    simp [hmem.2]
  have h2 : (enumRowsFrom iso 0 L).filter (fun r => r.task_date == iso)
      = enumRowsFrom iso 0 L := by
    rw [List.filter_eq_self]
    intro a ha
    have := (enumRowsFrom_mem iso L 0 a ha).1
    simp [this]
  rw [h1, h2, List.nil_append]

theorem selectTasks_save (st : StorageState) (iso : String)
    (L : List TaskRecord) :
    selectTasks (saveTasksForDate st iso L) iso = L := by
  rw [selectTasks, filter_save_rows, sortByPos_enumRows iso L 0,
    map_recordOfRow_enumRows iso L 0]

theorem load_save_nonempty (st : StorageState) (iso : String)
    (L : List TaskRecord) (h : L ≠ []) :
    loadTasksForDate (saveTasksForDate st iso L) iso
      = (L, saveTasksForDate st iso L) := by
  cases L with
  | nil => exact absurd rfl h
  | cons a L' => simp [loadTasksForDate, selectTasks_save]

/-- C3 counterexample to the unrestricted round-trip: on a store whose
current archive directory still holds a legacy file with one task for the
day, `save(day, [])` followed by `load(day)` returns that migrated task,
not the empty list that was saved. -/
theorem save_empty_then_load_cex :
    (loadTasksForDate (saveTasksForDate legacyOnlyState "2024-01-01" [])
        "2024-01-01").1 = [⟨"x", false, false⟩]
    ∧ ([⟨"x", false, false⟩] : List TaskRecord) ≠ [] := by
  exact ⟨rfl, by simp⟩

/-- C3 (amended). `save(d, L)` replaces the day's rows wholesale
(delete-then-insert, positions the 0-based indices of `L`); the
`save`-then-`load` round-trip returns `L` in content and order for every
non-empty `L`, and for `L = []` whenever no legacy per-day file for `d`
yields tasks (an empty save leaves no rows, so `load` falls into the
legacy-migration path). -/
theorem save_load_roundtrip (st : StorageState) (iso : String)
    (L : List TaskRecord) :
    ((saveTasksForDate st iso L).rows.filter (fun r => r.task_date == iso)
        = enumRowsFrom iso 0 L)
    ∧ (L ≠ [] → (loadTasksForDate (saveTasksForDate st iso L) iso).1 = L)
    ∧ (migrateTasksFromJson st iso = [] →
        (loadTasksForDate (saveTasksForDate st iso L) iso).1 = L) := by
  refine ⟨filter_save_rows st iso L,
    fun h => by rw [load_save_nonempty st iso L h], ?_⟩
  intro hm
  by_cases hL : L = []
  · subst hL
    have hm' : migrateTasksFromJson (saveTasksForDate st iso []) iso = [] := hm
    simp [loadTasksForDate, selectTasks_save, hm']
  · rw [load_save_nonempty st iso L hL]

/-- C4 counterexample to "acts on the first successful parse": with the
current-path file parsing successfully to the empty array `[]` and the
legacy-path file holding one task, `load` does not stop at (or persist)
the first successfully parsed contents — it falls through and returns the
legacy-path tasks, which are not the empty list. -/
theorem migration_candidate_order_cex :
    emptyThenLegacyState.archiveFile "2024-01-02" = some (.arr [])
    ∧ (loadTasksForDate emptyThenLegacyState "2024-01-02").1
        = [⟨"x", false, false⟩]
    ∧ ([⟨"x", false, false⟩] : List TaskRecord) ≠ [] := by
  exact ⟨rfl, rfl, by simp⟩

/-- C4 (amended). When the day has no rows, `load` tries the current
archive path and then the legacy archive path, acting on the first
candidate whose parse yields a *non-empty* task list: it persists those
tasks and returns them. A second `load` then yields the same result
(migration effectively runs once). When no candidate yields tasks, `load`
returns the empty list with the store untouched — it never fails on
"not found". -/
theorem load_migration_behavior (st : StorageState) (iso : String) :
    (loadTasksForDate (loadTasksForDate st iso).2 iso
        = ((loadTasksForDate st iso).1, (loadTasksForDate st iso).2))
    ∧ (selectTasks st iso = [] →
        readTasksFromJson (st.archiveFile iso) = [] →
        readTasksFromJson (st.legacyArchiveFile iso) = [] →
        loadTasksForDate st iso = ([], st))
    ∧ (∀ M, selectTasks st iso = [] →
        readTasksFromJson (st.archiveFile iso) = M → M ≠ [] →
        loadTasksForDate st iso = (M, saveTasksForDate st iso M))
    ∧ (∀ M, selectTasks st iso = [] →
        readTasksFromJson (st.archiveFile iso) = [] →
        readTasksFromJson (st.legacyArchiveFile iso) = M → M ≠ [] →
        loadTasksForDate st iso = (M, saveTasksForDate st iso M)) := by
  refine ⟨?_, ?_, ?_, ?_⟩
  · by_cases h0 : selectTasks st iso = []
    · by_cases hm : migrateTasksFromJson st iso = []
      · have hld : loadTasksForDate st iso = ([], st) := by
          simp [loadTasksForDate, h0, hm]
        simp [hld]
      · have hld : loadTasksForDate st iso
            = (migrateTasksFromJson st iso,
               saveTasksForDate st iso (migrateTasksFromJson st iso)) := by
          rcases hM : migrateTasksFromJson st iso with _ | ⟨a, M'⟩
          · exact absurd hM hm
          · simp [loadTasksForDate, h0, hM]
        rw [hld]
        show loadTasksForDate
            (saveTasksForDate st iso (migrateTasksFromJson st iso)) iso
          = (migrateTasksFromJson st iso,
             saveTasksForDate st iso (migrateTasksFromJson st iso))
        exact load_save_nonempty st iso _ hm
    · have hld : loadTasksForDate st iso = (selectTasks st iso, st) := by
        rcases hR : selectTasks st iso with _ | ⟨a, R'⟩
        · exact absurd hR h0
        · simp [loadTasksForDate, hR]
      simp [hld]
  · intro h0 h1 h2
    simp [loadTasksForDate, migrateTasksFromJson, h0, h1, h2]
  · intro M h0 h1 hM
    rcases hMc : M with _ | ⟨a, M'⟩
    · exact absurd hMc hM
    · subst hMc
      have hmig : migrateTasksFromJson st iso = a :: M' := by
        simp [migrateTasksFromJson, h1]
      simp [loadTasksForDate, h0, hmig]
  · intro M h0 h1 h2 hM
    rcases hMc : M with _ | ⟨a, M'⟩
    · exact absurd hMc hM
    · subst hMc
      have hmig : migrateTasksFromJson st iso = a :: M' := by
        simp [migrateTasksFromJson, h1, h2]
      simp [loadTasksForDate, h0, hmig]

/-! ### Credential store -/

/-- C8 counterexample to "returns the saved credential trimmed, or none if
unset": after saving the whitespace-only credential `"  "` the credential
is set, yet `load` returns `none` (the stored value strips to empty and
falls through to the absent legacy file) instead of the trimmed saved
value `some ""`. -/
theorem api_key_blank_cex :
    (saveApiKey emptyState "  ").apiKey = some "  "
    ∧ (loadApiKey (saveApiKey emptyState "  ")).1 = none
    ∧ some (pyStrip "  ") ≠ (none : Option String) := by
  exact ⟨rfl, rfl, by simp⟩

/-- C8 (amended). With the credential slot unset and no legacy credential
file, `load` returns `none` without failing and leaves the store
untouched; after saving a credential whose strip is non-empty, `load`
returns it trimmed — in particular `save "abc"` then `load` gives
`"abc"`. Whitespace-only stored values are treated as unset (they fall
back to legacy migration, not to their trimmed value). -/
theorem api_key_load_save (st : StorageState) :
    (st.apiKey = none → st.legacyApiKeyFile = none →
      loadApiKey st = (none, st))
    ∧ (∀ k, (pyStrip k).isEmpty = false →
        (loadApiKey (saveApiKey st k)).1 = some (pyStrip k))
    ∧ (loadApiKey (saveApiKey st "abc")).1 = some "abc" := by
  refine ⟨?_, ?_, rfl⟩
  · intro h1 h2
    simp [loadApiKey, legacyApiKeyFromJson, h1, h2]
  · intro k hk
    simp [loadApiKey, saveApiKey, hk]

end DailyTask
